import Mathlib

/-!
Verification of the bloop indexing core (`cache.rs`, `indexes/file.rs`).

The Rust source is shallowly embedded: the `scc::HashMap` / `dashmap` maps
become association lists with unique keys, mutation becomes explicit state
passing, fallible operations return `Except`, and the external collaborators
(blake3, the embedder, the symbol extractor, tantivy, qdrant, sqlx) are
parameters or oracles, exactly as the spec declares them out of scope.
Every SQL statement of a chunk-cache commit is collected into a transaction
and applied to the relational store only when the transaction commits,
mirroring sqlx transaction semantics; every store write is also recorded in
an event trace so that ordering and batching properties can be stated.
-/

namespace Bloop

/-- `FreshValue<T>` from `cache.rs`: a value together with the per-pass
"seen" bit.  Deserialization yields `fresh = false`; `From<T>` yields
`fresh = true`. -/
structure FreshValue (T : Type) where
  fresh : Bool
  value : T
deriving DecidableEq, Repr

/-- `FreshValue::stale` from `cache.rs`. -/
def FreshValue.stale {T : Type} (value : T) : FreshValue T :=
  { fresh := false, value := value }

/-- `impl From<T> for FreshValue<T>` from `cache.rs`: construction from an
in-memory value is fresh. -/
def FreshValue.ofValue {T : Type} (value : T) : FreshValue T :=
  { fresh := true, value := value }

/-! ### Association-list maps

`scc::HashMap` and `dashmap::DashMap` keep at most one entry per key.  We
model them as association lists; `getKey` is lookup, `setKey` replaces the
value at an existing key in place (the `Occupied` arm of the entry API) and
appends otherwise (the `Vacant` arm). -/

/-- Lookup in an association list (first entry with the key wins). -/
def getKey {α : Type} : List (String × α) → String → Option α
  | [], _ => none
  | (k1, v1) :: rest, k => if k1 = k then some v1 else getKey rest k

/-- Entry-API write: replace the value at the key if present, append the
binding otherwise. -/
def setKey {α : Type} : List (String × α) → String → α → List (String × α)
  | [], k, v => [(k, v)]
  | (k1, v1) :: rest, k, v =>
    if k1 = k then (k, v) :: rest else (k1, v1) :: setKey rest k v

/-- `scc::HashMap::insert`, which fails (and is ignored) when the key is
already present: insert only if absent. -/
def insertIfAbsent {α : Type} (m : List (String × α)) (k : String) (v : α) :
    List (String × α) :=
  match getKey m k with
  | some _ => m
  | none => m ++ [(k, v)]

theorem getKey_setKey_self {α : Type} (m : List (String × α)) (k : String) (v : α) :
    getKey (setKey m k v) k = some v := by
  induction m with
  | nil => simp [setKey, getKey]
  | cons kv rest ih =>
    by_cases h : kv.1 = k
    · simp [setKey, h, getKey]
    · simp [setKey, h, getKey, ih]

theorem getKey_setKey_other {α : Type} (m : List (String × α)) (k k2 : String) (v : α)
    (hne : k ≠ k2) : getKey (setKey m k v) k2 = getKey m k2 := by
  induction m with
  | nil => simp [setKey, getKey, hne]
  | cons kv rest ih =>
    by_cases h : kv.1 = k
    · have h2 : ¬ (k = k2) := hne
      have h3 : ¬ (kv.1 = k2) := by rw [h]; exact hne
      simp [setKey, h, getKey, h2, h3]
    · have hrw : setKey (kv :: rest) k v = kv :: setKey rest k v := by
        simp [setKey, h]
      rw [hrw]
      by_cases h2 : kv.1 = k2 <;> simp [getKey, h2, ih]

/-- Keys of an association list. -/
def keysOf {α : Type} (m : List (String × α)) : List String :=
  m.map Prod.fst

theorem keysOf_setKey {α : Type} (m : List (String × α)) (k : String) (v : α) :
    keysOf (setKey m k v) = if k ∈ keysOf m then keysOf m else keysOf m ++ [k] := by
  induction m with
  | nil => simp [setKey, keysOf]
  | cons kv rest ih =>
    by_cases h : kv.1 = k
    · have hk : k ∈ keysOf (kv :: rest) := by
        simp [keysOf]
        exact Or.inl h.symm
      simp only [setKey, h, if_pos rfl, hk, if_pos]
      simp [keysOf, h]
    · have hrw : keysOf (setKey (kv :: rest) k v) = kv.1 :: keysOf (setKey rest k v) := by
        simp [setKey, h, keysOf]
      have hmem : (k ∈ keysOf (kv :: rest)) ↔ (k ∈ keysOf rest) := by
        simp [keysOf]
        intro hx
        exact absurd hx.symm h
      rw [hrw, ih]
      by_cases h2 : k ∈ keysOf rest
      · rw [if_pos h2, if_pos (hmem.mpr h2)]
        simp [keysOf]
      · rw [if_neg h2, if_neg (fun hx => h2 (hmem.mp hx))]
        simp [keysOf]

theorem nodup_append_singleton {l : List String} {k : String}
    (h : l.Nodup) (hk : k ∉ l) : (l ++ [k]).Nodup := by
  refine List.Nodup.append h (List.nodup_singleton k) ?_
  intro a ha hb
  rw [List.mem_singleton] at hb
  exact hk (hb ▸ ha)

theorem nodup_keys_setKey {α : Type} (m : List (String × α)) (k : String) (v : α)
    (h : (keysOf m).Nodup) : (keysOf (setKey m k v)).Nodup := by
  rw [keysOf_setKey]
  by_cases hk : k ∈ keysOf m
  · simpa [hk]
  · rw [if_neg hk]
    exact nodup_append_singleton h hk

theorem getKey_none_of_not_mem_keys {α : Type} {m : List (String × α)} {k : String}
    (hg : getKey m k = none) : k ∉ keysOf m := by
  intro hmem
  induction m with
  | nil => simp [keysOf] at hmem
  | cons kv rest ih =>
    by_cases hh : kv.1 = k
    · simp [getKey, hh] at hg
    · simp [getKey, hh] at hg
      simp [keysOf] at hmem
      rcases hmem with h1 | h1
      · exact hh h1.symm
      · exact ih hg (by simpa [keysOf] using h1)

theorem nodup_keys_insertIfAbsent {α : Type} (m : List (String × α)) (k : String) (v : α)
    (h : (keysOf m).Nodup) : (keysOf (insertIfAbsent m k v)).Nodup := by
  unfold insertIfAbsent
  cases hg : getKey m k with
  | some w => simpa
  | none =>
    have hk : k ∉ keysOf m := getKey_none_of_not_mem_keys hg
    have : keysOf (m ++ [(k, v)]) = keysOf m ++ [k] := by simp [keysOf]
    rw [this]
    exact nodup_append_singleton h hk

/-! ### Content keys (`ChunkCache::cache_key`, branch hashing)

blake3 itself is an external collaborator; the development is parametric in
a digest function `blake3 : String → List Nat` returning the digest bytes
(32 bytes for the real blake3).  The incremental `blake3::Hasher` is
modelled as buffer accumulation, so that hashing two updates equals hashing
the concatenation, which is exactly the hasher contract. -/

/-- Lower-case hex digit, as produced by blake3 `to_hex` and by `Uuid`
rendering. -/
def hexDigit (n : Nat) : Char :=
  if n < 10 then Char.ofNat (48 + n) else Char.ofNat (87 + n)

/-- Two hex digits of one byte. -/
def byteHex (b : Nat) : List Char :=
  [hexDigit (b / 16 % 16), hexDigit (b % 16)]

/-- Lower-case hex rendering of a byte string (`blake3::Hash::to_string` /
`to_hex`). -/
def bytesHex (bs : List Nat) : String :=
  String.mk (bs.flatMap byteHex)

/-- `Uuid::from_bytes(b).to_string()`: canonical hyphenated form of 16
bytes, groups of 4-2-2-2-6 bytes. -/
def uuidString (bs : List Nat) : String :=
  bytesHex (bs.take 4) ++ "-" ++ bytesHex ((bs.drop 4).take 2) ++ "-" ++
    bytesHex ((bs.drop 6).take 2) ++ "-" ++ bytesHex ((bs.drop 8).take 2) ++ "-" ++
    bytesHex (bs.drop 10)

/-- `blake3::Hasher`: incremental hashing modelled as buffer accumulation. -/
structure Hasher where
  buf : String
deriving DecidableEq

/-- `blake3::Hasher::new()`. -/
def Hasher.init : Hasher := { buf := "" }

/-- `Hasher::update` on string bytes. -/
def Hasher.updateStr (h : Hasher) (s : String) : Hasher :=
  { buf := h.buf ++ s }

/-- `Hasher::finalize().as_bytes()`, given the digest function. -/
def Hasher.final (blake3 : String → List Nat) (h : Hasher) : List Nat :=
  blake3 h.buf

/-- `ChunkCache::cache_key` from `cache.rs`: feed the containing file's
cache key and then the chunk data to the hasher, take digest bytes
`[16..32]`, and render them as a UUID. -/
def cache_key (blake3 : String → List Nat) (file_cache_key data : String) : String :=
  uuidString ((((Hasher.init.updateStr file_cache_key).updateStr data).final blake3).drop 16
    |>.take 16)

/-- The branches hash computed in `ChunkCache::update_or_embed`:
`blake3::hash(payload.branches.join("\n")).to_string()`. -/
def branchesHashStr (blake3 : String → List Nat) (branches : List String) : String :=
  bytesHex (blake3 (String.intercalate "\n" branches))

/-! ### Chunk cache state (`ChunkCache` in `cache.rs`)

The embedding-vector type is a parameter `E` (vectors of `f32` are an
external payload the core never inspects). -/

/-- `semantic::Payload` as consumed by the chunk cache: only the ordered
branch list is read by `cache.rs`; the remaining payload fields ride along
opaquely inside the qdrant point and are not modelled. -/
structure Payload where
  branches : List String
deriving DecidableEq, Repr

/-- `qdrant::PointStruct` as built in `update_or_embed`. -/
structure PointStruct (E : Type) where
  id : String
  vector : E
  payload : Payload
deriving DecidableEq, Repr

/-- `ChunkCache` state: the per-file map `chunk_hash → FreshValue<branches
hash>` plus the three pending-write buffers. -/
structure ChunkCache (E : Type) where
  reporef : String
  file_cache_key : String
  cache : List (String × FreshValue String)
  update : List ((List String × String) × List String)
  new : List (PointStruct E)
  new_sql : List (String × String)
deriving DecidableEq

/-- `ChunkCache::for_file`: load the rows `(chunk_hash, branches)` stored
for this file as stale cells; the pending buffers start empty.
`scc::HashMap::insert` keeps the first binding when a key repeats. -/
def for_file (E : Type) (reporef file_cache_key : String) (rows : List (String × String)) :
    ChunkCache E :=
  { reporef := reporef
    file_cache_key := file_cache_key
    cache := rows.foldl (fun m r => insertIfAbsent m r.1 (FreshValue.stale r.2)) []
    update := []
    new := []
    new_sql := [] }

/-- `Vec::push` on the grouped branch-update buffer:
`update.entry((branches, branches_hash)).or_insert_with(Vec::new).get_mut().push(id)`. -/
def updAppend : List ((List String × String) × List String) → (List String × String) →
    String → List ((List String × String) × List String)
  | [], key, id => [(key, [id])]
  | (k1, ids) :: rest, key, id =>
    if k1 = key then (k1, ids ++ [id]) :: rest else (k1, ids) :: updAppend rest key id

/-- `ChunkCache::update_or_embed`.  The state is threaded explicitly (the
Rust method mutates `&self`); the first component is the `Result`.  In the
`Vacant` arm the source pushes `(id, branches_hash)` onto `new_sql`
*before* evaluating `embedder(data)?`, so on embedder error the mutated
state keeps that pending SQL insert while the map and the point buffer are
untouched. -/
def update_or_embed {E : Type} (blake3 : String → List Nat) (cc : ChunkCache E)
    (data : String) (embedder : String → Except Unit E) (payload : Payload) :
    Except Unit Unit × ChunkCache E :=
  let id := cache_key blake3 cc.file_cache_key data
  let branches_hash := branchesHashStr blake3 payload.branches
  match getKey cc.cache id with
  | some existing =>
    let cc1 :=
      if existing.value = branches_hash then cc
      else { cc with update := updAppend cc.update (payload.branches, branches_hash) id }
    (Except.ok (), { cc1 with cache := setKey cc1.cache id (FreshValue.ofValue branches_hash) })
  | none =>
    let cc1 := { cc with new_sql := cc.new_sql ++ [(id, branches_hash)] }
    match embedder data with
    | Except.error e => (Except.error e, cc1)
    | Except.ok v =>
      (Except.ok (),
        { cc1 with
          new := cc1.new ++ [{ id := id, vector := v, payload := payload }]
          cache := setKey cc1.cache id (FreshValue.ofValue branches_hash) })

/-! ### Commit (`ChunkCache::commit` and its three phases)

A commit runs inside one sqlx transaction: every successfully executed SQL
statement is collected and applied to the relational store only when the
transaction commits at the end.  qdrant RPCs happen outside the
transaction.  Statement and RPC outcomes come from an oracle, so that
partial failures of any phase can be examined.  Every executed write is
also recorded in an event trace (SQL statements in execution order, RPCs
when issued). -/

/-- One relational statement issued during commit. -/
inductive SqlOp where
  | updateBranches (branches_hash chunk_hash : String)
  | deleteChunk (chunk_hash file_hash : String)
  | insertChunk (chunk_hash file_hash branches repo_ref : String)
deriving DecidableEq, Repr

/-- One store write issued during commit: a SQL statement inside the
transaction, or a qdrant RPC. -/
inductive Ev (E : Type) where
  | sql (op : SqlOp)
  | setPayload (ids : List String) (branches : List String)
  | deletePoints (ids : List String)
  | upsertPoints (points : List (PointStruct E))
deriving DecidableEq, Repr

/-- Oracle deciding the outcome of each relational statement and each
qdrant RPC. -/
structure Oracle (E : Type) where
  sqlOk : SqlOp → Bool
  setPayloadOk : List String → List String → Bool
  deletePointsOk : List String → Bool
  upsertPointsOk : List (PointStruct E) → Bool

/-- Execute a list of SQL statements in order, stopping at the first
failure (the `?` operator): returns whether all succeeded together with
the successfully executed prefix. -/
def runSqlOps {E : Type} (o : Oracle E) : List SqlOp → Bool × List SqlOp
  | [] => (true, [])
  | op :: rest =>
    if o.sqlOk op then
      let r := runSqlOps o rest
      (r.1, op :: r.2)
    else (false, [])

/-- `ChunkCache::commit_branch_updates`.  The loop executes the SQL
updates of every bucket in order and queues one `set_payload` future per
bucket; the futures are only driven by the `join_all` after the loop, so a
SQL failure aborts before any RPC is issued, while an RPC failure is
detected only after every bucket's RPC ran.  Returns
`(result update_size, executed SQL, trace)`. -/
def commit_branch_updates {E : Type} (o : Oracle E)
    (update : List ((List String × String) × List String)) :
    Except Unit Nat × List SqlOp × List (Ev E) :=
  let sqlOps := update.flatMap (fun b => b.2.map (fun p => SqlOp.updateBranches b.1.2 p))
  let r := runSqlOps o sqlOps
  if r.1 then
    let evs := r.2.map Ev.sql ++ update.map (fun b => Ev.setPayload b.2 b.1.1)
    if update.all (fun b => o.setPayloadOk b.2 b.1.1) then
      (Except.ok (update.foldl (fun n b => n + b.2.length) 0), r.2, evs)
    else (Except.error (), r.2, evs)
  else (Except.error (), r.2, r.2.map Ev.sql)

/-- The ids collected by the scan in `commit_deletes`: every cell still
`fresh = false`. -/
def staleIds (cache : List (String × FreshValue String)) : List String :=
  (cache.filter (fun kv => !kv.2.fresh)).map Prod.fst

/-- `ChunkCache::commit_deletes`: one SQL delete per stale id, then one
batched `delete_points` RPC — issued only when the id list is non-empty. -/
def commit_deletes {E : Type} (o : Oracle E) (file_cache_key : String)
    (cache : List (String × FreshValue String)) :
    Except Unit Nat × List SqlOp × List (Ev E) :=
  let to_delete := staleIds cache
  let sqlOps := to_delete.map (fun p => SqlOp.deleteChunk p file_cache_key)
  let r := runSqlOps o sqlOps
  if r.1 then
    if to_delete.isEmpty then (Except.ok to_delete.length, r.2, r.2.map Ev.sql)
    else
      let evs := r.2.map Ev.sql ++ [Ev.deletePoints to_delete]
      if o.deletePointsOk to_delete then (Except.ok to_delete.length, r.2, evs)
      else (Except.error (), r.2, evs)
  else (Except.error (), r.2, r.2.map Ev.sql)

/-- `ChunkCache::commit_inserts`: one SQL insert per pending
`(chunk_hash, branches)` row, then one batched `upsert_points` RPC —
issued only when the point list is non-empty ("qdrant doesn't like empty
payloads").  The reported size is the length of the point list. -/
def commit_inserts {E : Type} (o : Oracle E) (file_cache_key repo_str : String)
    (new : List (PointStruct E)) (new_sql : List (String × String)) :
    Except Unit Nat × List SqlOp × List (Ev E) :=
  let sqlOps := new_sql.map (fun pb => SqlOp.insertChunk pb.1 file_cache_key pb.2 repo_str)
  let r := runSqlOps o sqlOps
  if r.1 then
    if new.isEmpty then (Except.ok new.length, r.2, r.2.map Ev.sql)
    else
      let evs := r.2.map Ev.sql ++ [Ev.upsertPoints new]
      if o.upsertPointsOk new then (Except.ok new.length, r.2, evs)
      else (Except.error (), r.2, evs)
  else (Except.error (), r.2, r.2.map Ev.sql)

/-- One row of the relational `chunk_cache` table. -/
structure ChunkRow where
  chunk_hash : String
  file_hash : String
  branches : String
  repo_ref : String
deriving DecidableEq, Repr

/-- The relational `chunk_cache` table. -/
abbrev ChunkDB := List ChunkRow

/-- Effect of one committed SQL statement on the `chunk_cache` table. -/
def applyOp (db : ChunkDB) : SqlOp → ChunkDB
  | SqlOp.updateBranches bh p =>
    db.map (fun r => if r.chunk_hash = p then { r with branches := bh } else r)
  | SqlOp.deleteChunk p fk =>
    db.filter (fun r => !(r.chunk_hash = p && r.file_hash = fk))
  | SqlOp.insertChunk p fk b repo => db ++ [⟨p, fk, b, repo⟩]

/-- Apply a committed transaction to the table. -/
def applySql (ops : List SqlOp) (db : ChunkDB) : ChunkDB :=
  ops.foldl applyOp db

/-- `ChunkCache::commit`: begin a transaction, run the three phases
(branch updates, then deletes, then inserts), commit the transaction only
if no phase errored.  Returns the `Result<(new, update, delete)>` counts,
the relational table as visible after the call, and the event trace. -/
def commit {E : Type} (o : Oracle E) (cc : ChunkCache E) (db : ChunkDB) :
    Except Unit (Nat × Nat × Nat) × ChunkDB × List (Ev E) :=
  let a := commit_branch_updates o cc.update
  match a.1 with
  | Except.error e => (Except.error e, db, a.2.2)
  | Except.ok update_size =>
    let b := commit_deletes o cc.file_cache_key cc.cache
    match b.1 with
    | Except.error e => (Except.error e, db, a.2.2 ++ b.2.2)
    | Except.ok delete_size =>
      let c := commit_inserts o cc.file_cache_key cc.reporef cc.new cc.new_sql
      match c.1 with
      | Except.error e => (Except.error e, db, a.2.2 ++ b.2.2 ++ c.2.2)
      | Except.ok new_size =>
        (Except.ok (new_size, update_size, delete_size),
          applySql (a.2.1 ++ b.2.1 ++ c.2.1) db,
          a.2.2 ++ b.2.2 ++ c.2.2)

/-! ### Per-file worker and sweep (`indexes/file.rs`)

The file cache here is `state::FileCache`, a map
`file_disk_path → FreshValue<content_hash>` (dashmap entry API).  The
external collaborators — the filesystem read, `strip_prefix`, the
tree-sitter scope graph, the ctags table, `bincode::serialize`, and the
tantivy writer — are oracle fields, faithful to the spec's adapter
contracts; the in-`src` control flow around them is modelled exactly. -/

/-- `SymbolLocations` consumed by the worker: a tree-sitter scope graph, a
ctags symbol list, or empty.  The graph and symbol payloads are opaque
type parameters. -/
inductive SymbolLocations (G S : Type) where
  | treeSitter (graph : G)
  | ctags (symbols : S)
  | empty
deriving DecidableEq, Repr

/-- A tantivy document as assembled by `worker`.  The `avg_line_length`
fast field (an `f64` division) is not modelled: floating point is outside
the embedding; no claim mentions it. -/
structure Document where
  repo_disk_path : String
  file_disk_path : String
  relative_path : String
  repo_ref : String
  repo_name : String
  content : String
  line_end_indices : List Nat
  lang : String
  last_commit_unix_seconds : Nat
  symbol_locations : List Nat
  symbols : String
deriving DecidableEq, Repr

/-- Little-endian bytes of `i as u32`. -/
def u32le (n : Nat) : List Nat :=
  [n % 256, n / 256 % 256, n / 65536 % 256, n / 16777216 % 256]

/-- UTF-8 bytes of a string, as `str::as_bytes`. -/
def strBytes (s : String) : List Nat :=
  s.toUTF8.toList.map (fun b => b.toNat)

/-- `buffer.match_indices('\n').flat_map(|(i, _)| u32::to_le_bytes(i as u32))`:
byte offsets of every newline, 4 little-endian bytes each. -/
def lineEndIndices (s : String) : List Nat :=
  ((strBytes s).enum.filter (fun ic => ic.2 = 10)).flatMap (fun ic => u32le ic.1)

/-- Inputs and collaborator outcomes of one `worker` call, for a fixed
file. -/
structure WorkerEnv (G S : Type) where
  file_disk_path : String
  repo_disk_path : String
  repo_ref : String
  repo_name : String
  last_commit : Nat
  schemaVersion : String
  blake3 : String → List Nat
  readFile : Except Unit String
  relPathOf : Except Unit String
  langLookup : Option (Option String)
  scope_graph_result : Except Unit G
  ctagsLookup : Option S
  flattenSymbols : SymbolLocations G S → String → String
  serializeSyms : SymbolLocations G S → Except Unit (List Nat)
  addDoc : Document → Except Unit Unit

/-- The content hash computed by `worker`: blake3 of
`SCHEMA_VERSION ‖ file bytes`, rendered as hex. -/
def content_hash {G S : Type} (env : WorkerEnv G S) (buffer : String) : String :=
  bytesHex (((Hasher.init.updateStr env.schemaVersion).updateStr buffer).final env.blake3)

/-- The fallback chain computing `symbol_locations`: scope graph, else
ctags, else empty. -/
def symbolLocationsOf {G S : Type} (env : WorkerEnv G S) : SymbolLocations G S :=
  match env.scope_graph_result with
  | Except.ok graph => SymbolLocations.treeSitter graph
  | Except.error _ =>
    match env.ctagsLookup with
    | some syms => SymbolLocations.ctags syms
    | none => SymbolLocations.empty

/-- The document assembled by `worker`: language lookup with its double
default, newline normalization of the buffer, newline offsets, lowercased
language, flattened symbols, and the serialized symbol locations. -/
def mkDoc {G S : Type} (env : WorkerEnv G S) (buffer0 relative_path : String)
    (symbytes : List Nat) : Document :=
  { repo_disk_path := env.repo_disk_path
    file_disk_path := env.file_disk_path
    relative_path := relative_path
    repo_ref := env.repo_ref
    repo_name := env.repo_name
    content := if buffer0.endsWith "\n" then buffer0 else buffer0 ++ "\n"
    line_end_indices :=
      lineEndIndices (if buffer0.endsWith "\n" then buffer0 else buffer0 ++ "\n")
    lang := ((env.langLookup.getD (some "")).getD "").toLower
    last_commit_unix_seconds := env.last_commit
    symbol_locations := symbytes
    symbols := env.flattenSymbols (symbolLocationsOf env) buffer0 }

/-- Steps of `worker` after the cache entry has been written: symbol
extraction with fallback, document assembly, serialization,
`add_document`.  Returns the result, the updated cache, and the documents
actually written. -/
def workerRest {G S : Type} (env : WorkerEnv G S)
    (cache1 : List (String × FreshValue String)) (buffer0 relative_path : String) :
    Except Unit Unit × List (String × FreshValue String) × List Document :=
  match env.serializeSyms (symbolLocationsOf env) with
  | Except.error e => (Except.error e, cache1, [])
  | Except.ok symbytes =>
    match env.addDoc (mkDoc env buffer0 relative_path symbytes) with
    | Except.error e => (Except.error e, cache1, [])
    | Except.ok _ => (Except.ok (), cache1, [mkDoc env buffer0 relative_path symbytes])

/-- The per-file `worker` of `indexes/file.rs`.  A failed file read skips
the file and returns `Ok`; `strip_prefix` failure errors before the cache
is touched; an entry whose stored hash equals the current content hash is
only marked fresh and the worker returns with no further work; otherwise
the entry is replaced by a fresh cell with the new hash *before* the
document is produced. -/
def worker {G S : Type} (env : WorkerEnv G S) (cache : List (String × FreshValue String)) :
    Except Unit Unit × List (String × FreshValue String) × List Document :=
  match env.readFile with
  | Except.error _ => (Except.ok (), cache, [])
  | Except.ok buffer0 =>
    match env.relPathOf with
    | Except.error e => (Except.error e, cache, [])
    | Except.ok relative_path =>
      let ch := content_hash env buffer0
      match getKey cache env.file_disk_path with
      | some cell =>
        if cell.value = ch then
          (Except.ok (), setKey cache env.file_disk_path { cell with fresh := true }, [])
        else
          workerRest env (setKey cache env.file_disk_path (FreshValue.ofValue ch))
            buffer0 relative_path
      | none =>
        workerRest env (setKey cache env.file_disk_path (FreshValue.ofValue ch))
          buffer0 relative_path

/-- The end-of-pass sweep in `File::index_repository`:
`file_cache.retain(|k, v| { if !v.fresh { writer.delete_term(file_disk_path, k) }; v.fresh })`.
Returns the `delete_term` keys issued and the retained snapshot, which is
then persisted by `save_file_cache`. -/
def sweep : List (String × FreshValue String) →
    List String × List (String × FreshValue String)
  | [] => ([], [])
  | kv :: rest =>
    let r := sweep rest
    if kv.2.fresh then (r.1, kv :: r.2) else (kv.1 :: r.1, r.2)

/-- Modelled from the spec: `repo.open_file_cache` / deserialization of a
persisted snapshot is in `state.rs`, which is not under `src/`; the spec
states "Deserialization from the relational store always yields
`fresh=false`", so reloading a persisted snapshot keeps every key and
value and clears every fresh bit. -/
def staleCopy (m : List (String × FreshValue String)) :
    List (String × FreshValue String) :=
  m.map (fun kv => (kv.1, FreshValue.stale kv.2.value))

/-! ### Helper lemmas -/

theorem string_empty_append (s : String) : "" ++ s = s := by
  cases s
  rfl

theorem cache_key_concat (blake3 : String → List Nat) (fk d : String) :
    cache_key blake3 fk d = uuidString (((blake3 (fk ++ d)).drop 16).take 16) := by
  simp [cache_key, Hasher.final, Hasher.updateStr, Hasher.init, string_empty_append]

theorem content_hash_concat {G S : Type} (env : WorkerEnv G S) (buffer : String) :
    content_hash env buffer = bytesHex (env.blake3 (env.schemaVersion ++ buffer)) := by
  simp [content_hash, Hasher.final, Hasher.updateStr, Hasher.init, string_empty_append]

/-! ### C8 — chunk id derivation -/

/-- C8: `cache_key` (the chunk id / vector point id) is the UUID rendering
of bytes `[16..32]` — the low 128 bits — of the digest of
`file_hash ‖ chunk_bytes`, and it is a deterministic pure function: equal
inputs give equal ids. -/
theorem chunk_id_low128_deterministic (blake3 : String → List Nat) (fk d : String) :
    cache_key blake3 fk d = uuidString (((blake3 (fk ++ d)).drop 16).take 16) ∧
    ((blake3 (fk ++ d)).length = 32 →
      cache_key blake3 fk d = uuidString ((blake3 (fk ++ d)).drop 16)) ∧
    (∀ fk2 d2, fk = fk2 → d = d2 → cache_key blake3 fk d = cache_key blake3 fk2 d2) := by
  refine ⟨cache_key_concat blake3 fk d, ?_, ?_⟩
  · intro hlen
    rw [cache_key_concat blake3 fk d]
    have h16 : ((blake3 (fk ++ d)).drop 16).length ≤ 16 := by
      rw [List.length_drop, hlen]
    rw [List.take_of_length_le h16]
  · intro fk2 d2 h1 h2
    rw [h1, h2]

/-- Witness for C8 at a concrete digest function and concrete inputs. -/
theorem chunk_id_low128_deterministic_witness :
    (List.range 32).length = 32 ∧
    cache_key (fun _ => List.range 32) "fh" "chunk" =
      uuidString (((List.range 32).drop 16).take 16) ∧
    cache_key (fun _ => List.range 32) "fh" "chunk" =
      uuidString ((List.range 32).drop 16) ∧
    cache_key (fun _ => List.range 32) "fh" "chunk" =
      cache_key (fun _ => List.range 32) "fh" "chunk" := by
  refine ⟨by decide, ?_, ?_, ?_⟩
  · exact (chunk_id_low128_deterministic (fun _ => List.range 32) "fh" "chunk").1
  · exact (chunk_id_low128_deterministic (fun _ => List.range 32) "fh" "chunk").2.1 (by decide)
  · exact (chunk_id_low128_deterministic (fun _ => List.range 32) "fh" "chunk").2.2 "fh" "chunk"
      rfl rfl

/-! ### C7 — sweep -/

/-- C7: the sweep issues one full-text delete (keyed by file disk path)
for exactly the entries still `fresh = false`, removes exactly those
entries from the snapshot, and the snapshot that is then persisted
consists of the `fresh = true` entries only. -/
theorem sweep_deletes_stale_retains_fresh (cache : List (String × FreshValue String)) :
    sweep cache = ((cache.filter (fun kv => !kv.2.fresh)).map Prod.fst,
                   cache.filter (fun kv => kv.2.fresh)) ∧
    ((sweep cache).2.all (fun kv => kv.2.fresh)) = true := by
  have h1 : sweep cache = ((cache.filter (fun kv => !kv.2.fresh)).map Prod.fst,
      cache.filter (fun kv => kv.2.fresh)) := by
    induction cache with
    | nil => rfl
    | cons kv rest ih => cases hf : kv.2.fresh <;> simp [sweep, hf, ih]
  refine ⟨h1, ?_⟩
  rw [h1]
  simp only [List.all_eq_true]
  intro kv hkv
  exact (List.mem_filter.mp hkv).2

/-! ### C4 — unchanged file short-circuits the worker -/

theorem worker_same_hash_eq {G S : Type} (env : WorkerEnv G S)
    (cache : List (String × FreshValue String)) (buffer rp : String) (cell : FreshValue String)
    (hread : env.readFile = Except.ok buffer)
    (hrel : env.relPathOf = Except.ok rp)
    (hget : getKey cache env.file_disk_path = some cell)
    (hsame : cell.value = content_hash env buffer) :
    worker env cache =
      (Except.ok (), setKey cache env.file_disk_path { cell with fresh := true }, []) := by
  unfold worker
  rw [hread, hrel, hget]
  simp [hsame]

/-- C4: when the snapshot already holds this file's path with the same
content hash, `worker` only marks that entry fresh and returns: no
document is written, and (the worker body containing no embedder or
chunk-cache call on any path) no other state changes. -/
theorem worker_unchanged_file_marks_fresh_and_skips {G S : Type} (env : WorkerEnv G S)
    (cache : List (String × FreshValue String)) (buffer rp : String) (cell : FreshValue String)
    (hread : env.readFile = Except.ok buffer)
    (hrel : env.relPathOf = Except.ok rp)
    (hget : getKey cache env.file_disk_path = some cell)
    (hsame : cell.value = content_hash env buffer) :
    worker env cache =
      (Except.ok (), setKey cache env.file_disk_path { cell with fresh := true }, []) :=
  worker_same_hash_eq env cache buffer rp cell hread hrel hget hsame

/-- A concrete environment for the worker witnesses: the digest function
returns the empty byte string, so all content hashes are `""`. -/
def envW : WorkerEnv Unit Unit :=
  { file_disk_path := "/r/a.txt"
    repo_disk_path := "/r"
    repo_ref := "ref"
    repo_name := "r"
    last_commit := 7
    schemaVersion := "1"
    blake3 := fun _ => []
    readFile := Except.ok "hi"
    relPathOf := Except.ok "a.txt"
    langLookup := some (some "Rust")
    scope_graph_result := Except.error ()
    ctagsLookup := none
    flattenSymbols := fun _ _ => ""
    serializeSyms := fun _ => Except.ok []
    addDoc := fun _ => Except.ok () }

/-- Witness for C4 at a concrete environment and snapshot. -/
theorem worker_unchanged_file_marks_fresh_and_skips_witness :
    envW.readFile = Except.ok "hi" ∧ envW.relPathOf = Except.ok "a.txt" ∧
    getKey [("/r/a.txt", FreshValue.stale "")] envW.file_disk_path =
      some (FreshValue.stale "") ∧
    (FreshValue.stale "").value = content_hash envW "hi" ∧
    worker envW [("/r/a.txt", FreshValue.stale "")] =
      (Except.ok (), setKey [("/r/a.txt", FreshValue.stale "")] envW.file_disk_path
        { FreshValue.stale "" with fresh := true }, []) := by
  refine ⟨rfl, rfl, by decide, by decide, ?_⟩
  exact worker_unchanged_file_marks_fresh_and_skips envW _ "hi" "a.txt" (FreshValue.stale "")
    rfl rfl (by decide) (by decide)

/-! ### C2 — embedder error on a cache miss

In the `Vacant` arm of `update_or_embed` the source pushes
`(id, branches_hash)` onto `new_sql` *before* evaluating
`embedder(data)?`.  When the embedder errors, the error propagates and the
map and point buffer are untouched, but the pending SQL insert remains in
`new_sql` — contradicting the claim (and the commit doc comment that the
SQLite operations mirror qdrant changes 1:1): the later commit will write
the relational row although no vector point exists. -/

/-- C2 (code-bug exhibit): observing a new chunk with a failing embedder
propagates the error and leaves the map and the point buffer empty, yet
the pending SQL-insert buffer now holds the chunk's row. -/
theorem update_or_embed_embedder_error_keeps_pending_sql_insert :
    (update_or_embed (fun _ => List.range 32) (for_file Unit "repo" "fh" []) "chunk"
        (fun _ => Except.error ()) { branches := ["main"] }).1 = Except.error () ∧
    (update_or_embed (fun _ => List.range 32) (for_file Unit "repo" "fh" []) "chunk"
        (fun _ => Except.error ()) { branches := ["main"] }).2.cache = [] ∧
    (update_or_embed (fun _ => List.range 32) (for_file Unit "repo" "fh" []) "chunk"
        (fun _ => Except.error ()) { branches := ["main"] }).2.new = [] ∧
    (update_or_embed (fun _ => List.range 32) (for_file Unit "repo" "fh" []) "chunk"
        (fun _ => Except.error ()) { branches := ["main"] }).2.new_sql =
      [(cache_key (fun _ => List.range 32) "fh" "chunk",
        branchesHashStr (fun _ => List.range 32) ["main"])] ∧
    (update_or_embed (fun _ => List.range 32) (for_file Unit "repo" "fh" []) "chunk"
        (fun _ => Except.error ()) { branches := ["main"] }).2.new_sql ≠ [] := by
  refine ⟨rfl, rfl, rfl, rfl, ?_⟩
  exact List.cons_ne_nil _ _

/-! ### C6 — hit with a different branches hash -/

/-- C6: observing a chunk already in the map under a different branches
hash appends the id to the branch-update group keyed by the new
`(branches, branches_hash)` pair, replaces the cell by a fresh cell with
the new hash, leaves both insert buffers alone, and never invokes the
embedder (the outcome does not depend on it). -/
theorem observe_hit_different_branches {E : Type} (blake3 : String → List Nat)
    (cc : ChunkCache E) (data : String) (emb : String → Except Unit E) (payload : Payload)
    (cell : FreshValue String)
    (hget : getKey cc.cache (cache_key blake3 cc.file_cache_key data) = some cell)
    (hne : cell.value ≠ branchesHashStr blake3 payload.branches) :
    update_or_embed blake3 cc data emb payload =
      (Except.ok (),
        { cc with
          update := updAppend cc.update
            (payload.branches, branchesHashStr blake3 payload.branches)
            (cache_key blake3 cc.file_cache_key data)
          cache := setKey cc.cache (cache_key blake3 cc.file_cache_key data)
            (FreshValue.ofValue (branchesHashStr blake3 payload.branches)) }) ∧
    (∀ emb2 : String → Except Unit E,
      update_or_embed blake3 cc data emb2 payload = update_or_embed blake3 cc data emb payload) := by
  constructor
  · simp only [update_or_embed, hget]
    simp [hne]
  · intro emb2
    simp only [update_or_embed, hget]

/-- The digest function used by the chunk-cache witnesses: empty digest,
so the branches hash is `""` and the chunk id is `"----"`. -/
def blakeNil : String → List Nat := fun _ => []

/-- The chunk-cache state used by the C6 witness: one stale cell under the
chunk's id with branches hash `"x"`. -/
def ccW6 : ChunkCache Unit :=
  { reporef := "r"
    file_cache_key := "fh"
    cache := [(cache_key blakeNil "fh" "chunk", FreshValue.stale "x")]
    update := []
    new := []
    new_sql := [] }

/-- Witness for C6 at a concrete state and payload. -/
theorem observe_hit_different_branches_witness :
    getKey ccW6.cache (cache_key blakeNil ccW6.file_cache_key "chunk") =
      some (FreshValue.stale "x") ∧
    (FreshValue.stale "x").value ≠ branchesHashStr blakeNil ["main"] ∧
    (update_or_embed blakeNil ccW6 "chunk" (fun _ => Except.ok ()) { branches := ["main"] } =
      (Except.ok (),
        { ccW6 with
          update := updAppend ccW6.update
            (["main"], branchesHashStr blakeNil ["main"])
            (cache_key blakeNil ccW6.file_cache_key "chunk")
          cache := setKey ccW6.cache (cache_key blakeNil ccW6.file_cache_key "chunk")
            (FreshValue.ofValue (branchesHashStr blakeNil ["main"])) }) ∧
      (∀ emb2 : String → Except Unit Unit,
        update_or_embed blakeNil ccW6 "chunk" emb2 { branches := ["main"] } =
          update_or_embed blakeNil ccW6 "chunk" (fun _ => Except.ok ())
            { branches := ["main"] })) := by
  refine ⟨by decide, by decide, ?_⟩
  exact observe_hit_different_branches blakeNil ccW6 "chunk" (fun _ => Except.ok ())
    { branches := ["main"] } (FreshValue.stale "x") (by decide) (by decide)

/-! ### C1 — a failing commit leaves the relational store unchanged -/

/-- C1: whenever any phase of `ChunkCache::commit` (branch updates,
deletes, inserts — a relational statement or a vector-store RPC) returns
an error, the transaction is never committed and the relational
`chunk_cache` table visible after the call is exactly the table before
it. -/
theorem commit_error_leaves_relational_store_unchanged {E : Type} (o : Oracle E)
    (cc : ChunkCache E) (db : ChunkDB) (e : Unit)
    (h : (commit o cc db).1 = Except.error e) :
    (commit o cc db).2.1 = db := by
  simp only [commit] at h ⊢
  cases ha : (commit_branch_updates o cc.update).1 with
  | error ea => simp [ha]
  | ok ua =>
    cases hb : (commit_deletes o cc.file_cache_key cc.cache).1 with
    | error eb => simp [ha, hb]
    | ok ub =>
      cases hc : (commit_inserts o cc.file_cache_key cc.reporef cc.new cc.new_sql).1 with
      | error ec => simp [ha, hb, hc]
      | ok uc => simp [ha, hb, hc] at h

/-- Oracle for the C1 witness: the batched `delete_points` RPC fails. -/
def oracleFailDelete : Oracle Unit :=
  { sqlOk := fun _ => true
    setPayloadOk := fun _ _ => true
    deletePointsOk := fun _ => false
    upsertPointsOk := fun _ => true }

/-- Chunk-cache state for the C1 witness: one stale cell, so the delete
phase issues the failing RPC. -/
def ccW1 : ChunkCache Unit :=
  { reporef := "r"
    file_cache_key := "fh"
    cache := [("c1", FreshValue.stale "b")]
    update := []
    new := []
    new_sql := [] }

/-- Witness for C1: a commit whose delete phase fails reports the error
and the table is untouched. -/
theorem commit_error_leaves_relational_store_unchanged_witness :
    (commit oracleFailDelete ccW1 [⟨"c1", "fh", "b", "r"⟩]).1 = Except.error () ∧
    (commit oracleFailDelete ccW1 [⟨"c1", "fh", "b", "r"⟩]).2.1 = [⟨"c1", "fh", "b", "r"⟩] := by
  refine ⟨rfl, ?_⟩
  exact commit_error_leaves_relational_store_unchanged oracleFailDelete ccW1
    [⟨"c1", "fh", "b", "r"⟩] () rfl

/-! ### C3 — phase ordering inside one commit -/

/-- An event belonging to the branch-update phase: a SQL branches update
or a `set_payload` RPC. -/
def Ev.isUpdateKind {E : Type} : Ev E → Bool
  | Ev.sql (SqlOp.updateBranches _ _) => true
  | Ev.setPayload _ _ => true
  | _ => false

/-- An event belonging to the delete phase: a SQL chunk delete or a
`delete_points` RPC. -/
def Ev.isDeleteKind {E : Type} : Ev E → Bool
  | Ev.sql (SqlOp.deleteChunk _ _) => true
  | Ev.deletePoints _ => true
  | _ => false

/-- An event belonging to the insert phase: a SQL chunk insert or an
`upsert_points` RPC. -/
def Ev.isInsertKind {E : Type} : Ev E → Bool
  | Ev.sql (SqlOp.insertChunk _ _ _ _) => true
  | Ev.upsertPoints _ => true
  | _ => false

theorem runSqlOps_mem {E : Type} (o : Oracle E) (ops : List SqlOp) :
    ∀ op ∈ (runSqlOps o ops).2, op ∈ ops := by
  induction ops with
  | nil => simp [runSqlOps]
  | cons op rest ih =>
    intro x hx
    by_cases h : o.sqlOk op
    · simp only [runSqlOps, if_pos h] at hx
      rcases List.mem_cons.mp hx with h1 | h1
      · simp [h1]
      · exact List.mem_cons_of_mem _ (ih x h1)
    · simp [runSqlOps, if_neg h] at hx

theorem commit_branch_updates_trace_kinds {E : Type} (o : Oracle E)
    (u : List ((List String × String) × List String)) :
    ∀ ev ∈ (commit_branch_updates o u).2.2, Ev.isUpdateKind ev = true := by
  intro ev hev
  have hops : ∀ op ∈ (runSqlOps o (u.flatMap
      (fun b => b.2.map (fun p => SqlOp.updateBranches b.1.2 p)))).2,
      Ev.isUpdateKind (Ev.sql (E := E) op) = true := by
    intro op hop
    have hmem := runSqlOps_mem o _ op hop
    rw [List.mem_flatMap] at hmem
    obtain ⟨b, _, hb⟩ := hmem
    rw [List.mem_map] at hb
    obtain ⟨p, _, hp⟩ := hb
    rw [← hp]
    rfl
  simp only [commit_branch_updates] at hev
  by_cases h1 : (runSqlOps o (u.flatMap
      (fun b => b.2.map (fun p => SqlOp.updateBranches b.1.2 p)))).1
  · rw [if_pos h1] at hev
    by_cases h2 : u.all (fun b => o.setPayloadOk b.2 b.1.1)
    all_goals {
      first
        | rw [if_pos h2] at hev
        | rw [if_neg h2] at hev
      simp only [List.mem_append] at hev
      rcases hev with hev | hev
      · obtain ⟨op, hop, rfl⟩ := List.mem_map.mp hev
        exact hops op hop
      · obtain ⟨b, _, rfl⟩ := List.mem_map.mp hev
        rfl
    }
  · rw [if_neg h1] at hev
    obtain ⟨op, hop, rfl⟩ := List.mem_map.mp hev
    exact hops op hop

theorem commit_deletes_trace_kinds {E : Type} (o : Oracle E) (fk : String)
    (cache : List (String × FreshValue String)) :
    ∀ ev ∈ (commit_deletes o fk cache).2.2, Ev.isDeleteKind ev = true := by
  intro ev hev
  have hops : ∀ op ∈ (runSqlOps o ((staleIds cache).map
      (fun p => SqlOp.deleteChunk p fk))).2,
      Ev.isDeleteKind (Ev.sql (E := E) op) = true := by
    intro op hop
    have hmem := runSqlOps_mem o _ op hop
    rw [List.mem_map] at hmem
    obtain ⟨p, _, hp⟩ := hmem
    rw [← hp]
    rfl
  simp only [commit_deletes] at hev
  by_cases h1 : (runSqlOps o ((staleIds cache).map (fun p => SqlOp.deleteChunk p fk))).1
  · rw [if_pos h1] at hev
    by_cases h2 : (staleIds cache).isEmpty
    · rw [if_pos h2] at hev
      obtain ⟨op, hop, rfl⟩ := List.mem_map.mp hev
      exact hops op hop
    · rw [if_neg h2] at hev
      by_cases h3 : o.deletePointsOk (staleIds cache)
      all_goals {
        first
          | rw [if_pos h3] at hev
          | rw [if_neg h3] at hev
        simp only [List.mem_append, List.mem_singleton] at hev
        rcases hev with hev | hev
        · obtain ⟨op, hop, rfl⟩ := List.mem_map.mp hev
          exact hops op hop
        · rw [hev]
          rfl
      }
  · rw [if_neg h1] at hev
    obtain ⟨op, hop, rfl⟩ := List.mem_map.mp hev
    exact hops op hop

theorem commit_inserts_trace_kinds {E : Type} (o : Oracle E) (fk repo : String)
    (new : List (PointStruct E)) (new_sql : List (String × String)) :
    ∀ ev ∈ (commit_inserts o fk repo new new_sql).2.2, Ev.isInsertKind ev = true := by
  intro ev hev
  have hops : ∀ op ∈ (runSqlOps o (new_sql.map
      (fun pb => SqlOp.insertChunk pb.1 fk pb.2 repo))).2,
      Ev.isInsertKind (Ev.sql (E := E) op) = true := by
    intro op hop
    have hmem := runSqlOps_mem o _ op hop
    rw [List.mem_map] at hmem
    obtain ⟨p, _, hp⟩ := hmem
    rw [← hp]
    rfl
  simp only [commit_inserts] at hev
  by_cases h1 : (runSqlOps o (new_sql.map (fun pb => SqlOp.insertChunk pb.1 fk pb.2 repo))).1
  · rw [if_pos h1] at hev
    by_cases h2 : new.isEmpty
    · rw [if_pos h2] at hev
      obtain ⟨op, hop, rfl⟩ := List.mem_map.mp hev
      exact hops op hop
    · rw [if_neg h2] at hev
      by_cases h3 : o.upsertPointsOk new
      all_goals {
        first
          | rw [if_pos h3] at hev
          | rw [if_neg h3] at hev
        simp only [List.mem_append, List.mem_singleton] at hev
        rcases hev with hev | hev
        · obtain ⟨op, hop, rfl⟩ := List.mem_map.mp hev
          exact hops op hop
        · rw [hev]
          rfl
      }
  · rw [if_neg h1] at hev
    obtain ⟨op, hop, rfl⟩ := List.mem_map.mp hev
    exact hops op hop

/-- The trace of a commit splits into the traces of its three phases, in
phase order, each possibly cut short by an error. -/
theorem commit_trace_decomp {E : Type} (o : Oracle E) (cc : ChunkCache E) (db : ChunkDB) :
    ∃ ta tb tc, (commit o cc db).2.2 = ta ++ tb ++ tc ∧
      (∀ ev ∈ ta, ev ∈ (commit_branch_updates o cc.update).2.2) ∧
      (∀ ev ∈ tb, ev ∈ (commit_deletes o cc.file_cache_key cc.cache).2.2) ∧
      (∀ ev ∈ tc, ev ∈ (commit_inserts o cc.file_cache_key cc.reporef cc.new cc.new_sql).2.2) := by
  simp only [commit]
  cases ha : (commit_branch_updates o cc.update).1 with
  | error ea =>
    exact ⟨(commit_branch_updates o cc.update).2.2, [], [], by simp,
      fun ev h => h, by simp, by simp⟩
  | ok ua =>
    cases hb : (commit_deletes o cc.file_cache_key cc.cache).1 with
    | error eb =>
      exact ⟨(commit_branch_updates o cc.update).2.2,
        (commit_deletes o cc.file_cache_key cc.cache).2.2, [], by simp,
        fun ev h => h, fun ev h => h, by simp⟩
    | ok ub =>
      cases hc : (commit_inserts o cc.file_cache_key cc.reporef cc.new cc.new_sql).1 with
      | error ec =>
        exact ⟨(commit_branch_updates o cc.update).2.2,
          (commit_deletes o cc.file_cache_key cc.cache).2.2,
          (commit_inserts o cc.file_cache_key cc.reporef cc.new cc.new_sql).2.2, by simp,
          fun ev h => h, fun ev h => h, fun ev h => h⟩
      | ok uc =>
        exact ⟨(commit_branch_updates o cc.update).2.2,
          (commit_deletes o cc.file_cache_key cc.cache).2.2,
          (commit_inserts o cc.file_cache_key cc.reporef cc.new cc.new_sql).2.2, by simp,
          fun ev h => h, fun ev h => h, fun ev h => h⟩

/-- C3: the write trace of one commit is a concatenation of a block of
branch-update writes, then a block of deletion writes, then a block of
insert writes — so every branch update is issued before every delete, and
every delete (in particular of a stale chunk id) before every insert of a
new point. -/
theorem commit_phase_order {E : Type} (o : Oracle E) (cc : ChunkCache E) (db : ChunkDB) :
    ∃ ta tb tc, (commit o cc db).2.2 = ta ++ tb ++ tc ∧
      ta.all Ev.isUpdateKind = true ∧ tb.all Ev.isDeleteKind = true ∧
      tc.all Ev.isInsertKind = true := by
  obtain ⟨ta, tb, tc, htr, hta, htb, htc⟩ := commit_trace_decomp o cc db
  refine ⟨ta, tb, tc, htr, ?_, ?_, ?_⟩
  · rw [List.all_eq_true]
    intro ev hev
    exact commit_branch_updates_trace_kinds o cc.update ev (hta ev hev)
  · rw [List.all_eq_true]
    intro ev hev
    exact commit_deletes_trace_kinds o cc.file_cache_key cc.cache ev (htb ev hev)
  · rw [List.all_eq_true]
    intro ev hev
    exact commit_inserts_trace_kinds o cc.file_cache_key cc.reporef cc.new cc.new_sql ev
      (htc ev hev)

/-! ### C9 — vector-store batches are never empty -/

theorem commit_deletes_deletePoints_mem {E : Type} (o : Oracle E) (fk : String)
    (cache : List (String × FreshValue String)) (ids : List String)
    (h : Ev.deletePoints (E := E) ids ∈ (commit_deletes o fk cache).2.2) :
    ids = staleIds cache ∧ staleIds cache ≠ [] := by
  simp only [commit_deletes] at h
  by_cases h1 : (runSqlOps o ((staleIds cache).map (fun p => SqlOp.deleteChunk p fk))).1
  · rw [if_pos h1] at h
    by_cases h2 : (staleIds cache).isEmpty
    · rw [if_pos h2] at h
      obtain ⟨op, _, hop⟩ := List.mem_map.mp h
      exact absurd hop (by simp)
    · rw [if_neg h2] at h
      have hne : staleIds cache ≠ [] := by
        intro hh
        rw [hh] at h2
        exact h2 rfl
      by_cases h3 : o.deletePointsOk (staleIds cache)
      all_goals {
        first | rw [if_pos h3] at h | rw [if_neg h3] at h
        simp only [List.mem_append, List.mem_singleton] at h
        rcases h with h | h
        · obtain ⟨op, _, hop⟩ := List.mem_map.mp h
          exact absurd hop (by simp)
        · exact ⟨Ev.deletePoints.inj h, hne⟩
      }
  · rw [if_neg h1] at h
    obtain ⟨op, _, hop⟩ := List.mem_map.mp h
    exact absurd hop (by simp)

theorem commit_inserts_upsert_mem {E : Type} (o : Oracle E) (fk repo : String)
    (new : List (PointStruct E)) (new_sql : List (String × String))
    (pts : List (PointStruct E))
    (h : Ev.upsertPoints pts ∈ (commit_inserts o fk repo new new_sql).2.2) :
    pts = new ∧ new ≠ [] := by
  simp only [commit_inserts] at h
  by_cases h1 : (runSqlOps o (new_sql.map (fun pb => SqlOp.insertChunk pb.1 fk pb.2 repo))).1
  · rw [if_pos h1] at h
    by_cases h2 : new.isEmpty
    · rw [if_pos h2] at h
      obtain ⟨op, _, hop⟩ := List.mem_map.mp h
      exact absurd hop (by simp)
    · rw [if_neg h2] at h
      have hne : new ≠ [] := by
        intro hh
        rw [hh] at h2
        exact h2 rfl
      by_cases h3 : o.upsertPointsOk new
      all_goals {
        first | rw [if_pos h3] at h | rw [if_neg h3] at h
        simp only [List.mem_append, List.mem_singleton] at h
        rcases h with h | h
        · obtain ⟨op, _, hop⟩ := List.mem_map.mp h
          exact absurd hop (by simp)
        · exact ⟨Ev.upsertPoints.inj h, hne⟩
      }
  · rw [if_neg h1] at h
    obtain ⟨op, _, hop⟩ := List.mem_map.mp h
    exact absurd hop (by simp)

/-- C9: `upsert_points` and `delete_points` are only ever issued with
non-empty point/id lists, and when there are no pending points or no
stale ids the corresponding RPC is not issued at all. -/
theorem commit_vector_batches_nonempty {E : Type} (o : Oracle E) (cc : ChunkCache E)
    (db : ChunkDB) :
    (∀ pts, Ev.upsertPoints pts ∈ (commit o cc db).2.2 → pts ≠ []) ∧
    (∀ ids, Ev.deletePoints (E := E) ids ∈ (commit o cc db).2.2 → ids ≠ []) ∧
    (cc.new = [] → ∀ pts, Ev.upsertPoints pts ∉ (commit o cc db).2.2) ∧
    (staleIds cc.cache = [] → ∀ ids, Ev.deletePoints (E := E) ids ∉ (commit o cc db).2.2) := by
  obtain ⟨ta, tb, tc, htr, hta, htb, htc⟩ := commit_trace_decomp o cc db
  have hup : ∀ pts, Ev.upsertPoints pts ∈ (commit o cc db).2.2 →
      pts = cc.new ∧ cc.new ≠ [] := by
    intro pts hmem
    rw [htr] at hmem
    simp only [List.mem_append] at hmem
    rcases hmem with (hmem | hmem) | hmem
    · have := commit_branch_updates_trace_kinds o cc.update _ (hta _ hmem)
      simp [Ev.isUpdateKind] at this
    · have := commit_deletes_trace_kinds o cc.file_cache_key cc.cache _ (htb _ hmem)
      simp [Ev.isDeleteKind] at this
    · exact commit_inserts_upsert_mem o cc.file_cache_key cc.reporef cc.new cc.new_sql pts
        (htc _ hmem)
  have hdel : ∀ ids, Ev.deletePoints (E := E) ids ∈ (commit o cc db).2.2 →
      ids = staleIds cc.cache ∧ staleIds cc.cache ≠ [] := by
    intro ids hmem
    rw [htr] at hmem
    simp only [List.mem_append] at hmem
    rcases hmem with (hmem | hmem) | hmem
    · have := commit_branch_updates_trace_kinds o cc.update _ (hta _ hmem)
      simp [Ev.isUpdateKind] at this
    · exact commit_deletes_deletePoints_mem o cc.file_cache_key cc.cache ids (htb _ hmem)
    · have := commit_inserts_trace_kinds o cc.file_cache_key cc.reporef cc.new cc.new_sql _
        (htc _ hmem)
      simp [Ev.isInsertKind] at this
  refine ⟨?_, ?_, ?_, ?_⟩
  · intro pts hmem
    obtain ⟨h1, h2⟩ := hup pts hmem
    rw [h1]
    exact h2
  · intro ids hmem
    obtain ⟨h1, h2⟩ := hdel ids hmem
    rw [h1]
    exact h2
  · intro hnew pts hmem
    exact (hup pts hmem).2 hnew
  · intro hstale ids hmem
    exact (hdel ids hmem).2 hstale

/-- Oracle for positive witnesses: every statement and RPC succeeds. -/
def oracleOk : Oracle Unit :=
  { sqlOk := fun _ => true
    setPayloadOk := fun _ _ => true
    deletePointsOk := fun _ => true
    upsertPointsOk := fun _ => true }

/-- Chunk-cache state for the C9 witness: one stale cell to delete and
one pending point to insert, so both batched RPCs are issued. -/
def ccW9 : ChunkCache Unit :=
  { reporef := "r"
    file_cache_key := "fh"
    cache := [("c1", FreshValue.stale "b")]
    update := []
    new := [{ id := "c2", vector := (), payload := { branches := ["main"] } }]
    new_sql := [("c2", "bh")] }

/-- Witness for C9: in a concrete commit both RPCs appear in the trace,
and the theorem yields that their batches are non-empty. -/
theorem commit_vector_batches_nonempty_witness :
    Ev.upsertPoints [{ id := "c2", vector := (), payload := { branches := ["main"] } }] ∈
      (commit oracleOk ccW9 []).2.2 ∧
    Ev.deletePoints (E := Unit) ["c1"] ∈ (commit oracleOk ccW9 []).2.2 ∧
    [({ id := "c2", vector := (), payload := { branches := ["main"] } } : PointStruct Unit)] ≠
      [] ∧
    (["c1"] : List String) ≠ [] := by
  refine ⟨by decide, by decide, ?_, ?_⟩
  · exact (commit_vector_batches_nonempty oracleOk ccW9 []).1
      [{ id := "c2", vector := (), payload := { branches := ["main"] } }] (by decide)
  · exact (commit_vector_batches_nonempty oracleOk ccW9 []).2.1 ["c1"] (by decide)

/-! ### C10 — the snapshot entry is written before the document -/

theorem workerRest_cache {G S : Type} (env : WorkerEnv G S)
    (cache1 : List (String × FreshValue String)) (buffer0 relative_path : String) :
    (workerRest env cache1 buffer0 relative_path).2.1 = cache1 := by
  unfold workerRest
  cases hs : env.serializeSyms (symbolLocationsOf env) with
  | error e => rfl
  | ok symbytes =>
    cases ha : env.addDoc (mkDoc env buffer0 relative_path symbytes) <;> simp [ha]

theorem workerRest_error_docs {G S : Type} (env : WorkerEnv G S)
    (cache1 : List (String × FreshValue String)) (buffer0 relative_path : String) (e : Unit)
    (h : (workerRest env cache1 buffer0 relative_path).1 = Except.error e) :
    (workerRest env cache1 buffer0 relative_path).2.2 = [] := by
  revert h
  unfold workerRest
  cases hs : env.serializeSyms (symbolLocationsOf env) with
  | error e1 =>
    intro _
    rfl
  | ok symbytes =>
    cases ha : env.addDoc (mkDoc env buffer0 relative_path symbytes) with
    | error e1 =>
      intro _
      simp [ha]
    | ok u =>
      intro h
      simp [ha] at h

theorem worker_changed_eq_rest {G S : Type} (env : WorkerEnv G S)
    (cache : List (String × FreshValue String)) (buffer rp : String)
    (hread : env.readFile = Except.ok buffer)
    (hrel : env.relPathOf = Except.ok rp)
    (hdiff : ∀ cell, getKey cache env.file_disk_path = some cell →
      cell.value ≠ content_hash env buffer) :
    worker env cache =
      workerRest env
        (setKey cache env.file_disk_path (FreshValue.ofValue (content_hash env buffer)))
        buffer rp := by
  unfold worker
  rw [hread, hrel]
  cases hget : getKey cache env.file_disk_path with
  | none => simp
  | some cell => simp [hdiff cell hget]

theorem getKey_staleCopy (m : List (String × FreshValue String)) (k : String) :
    getKey (staleCopy m) k = (getKey m k).map (fun cell => FreshValue.stale cell.value) := by
  induction m with
  | nil => rfl
  | cons kv rest ih =>
    by_cases h : kv.1 = k
    · simp [staleCopy, getKey, h]
    · simp [staleCopy, getKey, h]
      simpa [staleCopy] using ih

/-- C10: with the file readable and its relative path available, a worker
run that fails in a later step (symbol serialization or `add_document`)
has already replaced the snapshot entry with the new content hash marked
fresh, and wrote no document; a second pass over the stale reload of that
snapshot with the unchanged file then returns after merely re-marking the
entry fresh — no document is ever written for that content. -/
theorem cache_entry_written_before_document {G S : Type} (env env2 : WorkerEnv G S)
    (cache : List (String × FreshValue String)) (buffer rp rp2 : String) (e : Unit)
    (hread : env.readFile = Except.ok buffer)
    (hrel : env.relPathOf = Except.ok rp)
    (herr : (worker env cache).1 = Except.error e)
    (h2read : env2.readFile = Except.ok buffer)
    (h2rel : env2.relPathOf = Except.ok rp2)
    (h2path : env2.file_disk_path = env.file_disk_path)
    (h2hash : content_hash env2 buffer = content_hash env buffer) :
    (worker env cache).2.1 =
      setKey cache env.file_disk_path (FreshValue.ofValue (content_hash env buffer)) ∧
    (worker env cache).2.2 = [] ∧
    worker env2 (staleCopy (worker env cache).2.1) =
      (Except.ok (),
        setKey (staleCopy (worker env cache).2.1) env2.file_disk_path
          (FreshValue.ofValue (content_hash env buffer)), []) := by
  have hdiff : ∀ cell, getKey cache env.file_disk_path = some cell →
      cell.value ≠ content_hash env buffer := by
    intro cell hget hsame
    have heq := worker_same_hash_eq env cache buffer rp cell hread hrel hget hsame
    rw [heq] at herr
    exact absurd herr (by simp)
  have hmain := worker_changed_eq_rest env cache buffer rp hread hrel hdiff
  have hcache : (worker env cache).2.1 =
      setKey cache env.file_disk_path (FreshValue.ofValue (content_hash env buffer)) := by
    rw [hmain]
    exact workerRest_cache env _ buffer rp
  have hdocs : (worker env cache).2.2 = [] := by
    rw [hmain]
    rw [hmain] at herr
    exact workerRest_error_docs env _ buffer rp e herr
  refine ⟨hcache, hdocs, ?_⟩
  have hget2 : getKey (staleCopy (worker env cache).2.1) env2.file_disk_path =
      some (FreshValue.stale (content_hash env buffer)) := by
    rw [hcache, h2path, getKey_staleCopy, getKey_setKey_self]
    rfl
  have := worker_same_hash_eq env2 (staleCopy (worker env cache).2.1) buffer rp2
    (FreshValue.stale (content_hash env buffer)) h2read h2rel hget2
    (by simpa [FreshValue.stale] using h2hash.symm)
  rw [this]
  rfl

/-- First-pass environment for the C10 witness: `bincode::serialize`
fails. -/
def envW10 : WorkerEnv Unit Unit :=
  { envW with serializeSyms := fun _ => Except.error () }

/-- Witness for C10: the failing first pass leaves the fresh entry and no
document; the second pass over the stale reload writes nothing. -/
theorem cache_entry_written_before_document_witness :
    (worker envW10 []).1 = Except.error () ∧
    (worker envW10 []).2.1 =
      setKey [] envW10.file_disk_path (FreshValue.ofValue (content_hash envW10 "hi")) ∧
    (worker envW10 []).2.2 = [] ∧
    worker envW (staleCopy (worker envW10 []).2.1) =
      (Except.ok (),
        setKey (staleCopy (worker envW10 []).2.1) envW.file_disk_path
          (FreshValue.ofValue (content_hash envW10 "hi")), []) := by
  have h := cache_entry_written_before_document envW10 envW [] "hi" "a.txt" "a.txt" ()
    rfl rfl rfl rfl rfl rfl rfl
  exact ⟨rfl, h.1, h.2.1, h.2.2⟩

/-! ### C5 — unchanged chunks enqueue no work -/

/-- One call to `update_or_embed`: the chunk bytes, the embedder passed
for this call, and the payload. -/
structure Obs (E : Type) where
  data : String
  embedder : String → Except Unit E
  payload : Payload

/-- The state after one `update_or_embed` call. -/
def stepObs {E : Type} (blake3 : String → List Nat) (cc : ChunkCache E) (ob : Obs E) :
    ChunkCache E :=
  (update_or_embed blake3 cc ob.data ob.embedder ob.payload).2

/-- The state after a sequence of `update_or_embed` calls. -/
def runObserves {E : Type} (blake3 : String → List Nat) :
    ChunkCache E → List (Obs E) → ChunkCache E
  | cc, [] => cc
  | cc, ob :: rest => runObserves blake3 (stepObs blake3 cc ob) rest

/-- The observation hits the map with an equal branches hash: the chunk is
unchanged in content (its id is present) and in branches. -/
def SameBh {E : Type} (blake3 : String → List Nat) (cc : ChunkCache E) (ob : Obs E) : Prop :=
  ∃ cell, getKey cc.cache (cache_key blake3 cc.file_cache_key ob.data) = some cell ∧
    cell.value = branchesHashStr blake3 ob.payload.branches

theorem update_or_embed_same_bh {E : Type} (blake3 : String → List Nat) (cc : ChunkCache E)
    (data : String) (emb : String → Except Unit E) (payload : Payload)
    (cell : FreshValue String)
    (hget : getKey cc.cache (cache_key blake3 cc.file_cache_key data) = some cell)
    (hval : cell.value = branchesHashStr blake3 payload.branches) :
    update_or_embed blake3 cc data emb payload =
      (Except.ok (),
        { cc with
          cache := setKey cc.cache (cache_key blake3 cc.file_cache_key data)
            (FreshValue.ofValue (branchesHashStr blake3 payload.branches)) }) := by
  simp only [update_or_embed, hget]
  simp [hval]

theorem stepObs_same_bh {E : Type} (blake3 : String → List Nat) (cc : ChunkCache E)
    (ob : Obs E) (h : SameBh blake3 cc ob) :
    stepObs blake3 cc ob =
      { cc with
        cache := setKey cc.cache (cache_key blake3 cc.file_cache_key ob.data)
          (FreshValue.ofValue (branchesHashStr blake3 ob.payload.branches)) } := by
  obtain ⟨cell, hget, hval⟩ := h
  unfold stepObs
  rw [update_or_embed_same_bh blake3 cc ob.data ob.embedder ob.payload cell hget hval]

theorem stepObs_same_bh_cache {E : Type} (blake3 : String → List Nat) (cc : ChunkCache E)
    (ob : Obs E) (h : SameBh blake3 cc ob) :
    (stepObs blake3 cc ob).cache =
      setKey cc.cache (cache_key blake3 cc.file_cache_key ob.data)
        (FreshValue.ofValue (branchesHashStr blake3 ob.payload.branches)) := by
  rw [stepObs_same_bh blake3 cc ob h]

theorem stepObs_same_bh_fck {E : Type} (blake3 : String → List Nat) (cc : ChunkCache E)
    (ob : Obs E) (h : SameBh blake3 cc ob) :
    (stepObs blake3 cc ob).file_cache_key = cc.file_cache_key := by
  rw [stepObs_same_bh blake3 cc ob h]

theorem stepObs_same_bh_reporef {E : Type} (blake3 : String → List Nat) (cc : ChunkCache E)
    (ob : Obs E) (h : SameBh blake3 cc ob) :
    (stepObs blake3 cc ob).reporef = cc.reporef := by
  rw [stepObs_same_bh blake3 cc ob h]

theorem stepObs_same_bh_buffers {E : Type} (blake3 : String → List Nat) (cc : ChunkCache E)
    (ob : Obs E) (h : SameBh blake3 cc ob) :
    (stepObs blake3 cc ob).update = cc.update ∧ (stepObs blake3 cc ob).new = cc.new ∧
      (stepObs blake3 cc ob).new_sql = cc.new_sql := by
  rw [stepObs_same_bh blake3 cc ob h]
  exact ⟨rfl, rfl, rfl⟩

theorem stepObs_same_bh_preserves {E : Type} (blake3 : String → List Nat)
    (cc : ChunkCache E) (ob : Obs E) (h : SameBh blake3 cc ob) (ob2 : Obs E)
    (h2 : SameBh blake3 cc ob2) : SameBh blake3 (stepObs blake3 cc ob) ob2 := by
  obtain ⟨cell, hget, hval⟩ := h
  obtain ⟨cell2, hget2, hval2⟩ := h2
  unfold SameBh
  rw [stepObs_same_bh_cache blake3 cc ob ⟨cell, hget, hval⟩,
    stepObs_same_bh_fck blake3 cc ob ⟨cell, hget, hval⟩]
  by_cases hk : cache_key blake3 cc.file_cache_key ob.data =
      cache_key blake3 cc.file_cache_key ob2.data
  · refine ⟨FreshValue.ofValue (branchesHashStr blake3 ob.payload.branches), ?_, ?_⟩
    · rw [← hk, getKey_setKey_self]
    · rw [← hk] at hget2
      rw [hget] at hget2
      have hcc : cell = cell2 := Option.some.inj hget2
      rw [FreshValue.ofValue, ← hval, hcc, hval2]
  · refine ⟨cell2, ?_, hval2⟩
    rw [getKey_setKey_other _ _ _ _ hk]
    exact hget2

theorem stepObs_same_bh_keeps_fresh {E : Type} (blake3 : String → List Nat)
    (cc : ChunkCache E) (ob : Obs E) (h : SameBh blake3 cc ob) (k : String)
    (cell2 : FreshValue String) (hget2 : getKey cc.cache k = some cell2)
    (hf : cell2.fresh = true) : getKey (stepObs blake3 cc ob).cache k = some cell2 := by
  obtain ⟨cell, hget, hval⟩ := h
  rw [stepObs_same_bh_cache blake3 cc ob ⟨cell, hget, hval⟩]
  by_cases hk : cache_key blake3 cc.file_cache_key ob.data = k
  · rw [hk, getKey_setKey_self]
    rw [hk, hget2] at hget
    have hcc : cell = cell2 := Option.some.inj hget.symm
    have hcell : FreshValue.ofValue (branchesHashStr blake3 ob.payload.branches) = cell2 := by
      rw [FreshValue.ofValue, ← hval, hcc]
      cases cell2 with
      | mk f v =>
        simp only [FreshValue.fresh] at hf
        rw [hf]
    rw [hcell]
  · rw [getKey_setKey_other _ _ _ _ hk]
    exact hget2

theorem runObserves_cons {E : Type} (blake3 : String → List Nat) (cc : ChunkCache E)
    (ob : Obs E) (rest : List (Obs E)) :
    runObserves blake3 cc (ob :: rest) = runObserves blake3 (stepObs blake3 cc ob) rest := rfl

/-- A sequence of hit-same-branches observations leaves every field but
the map untouched, preserves key uniqueness and every fresh cell, and
leaves each observed id present as a fresh cell with its branches hash. -/
theorem runObserves_same_bh_facts {E : Type} (blake3 : String → List Nat)
    (obs : List (Obs E)) :
    ∀ cc : ChunkCache E, (∀ ob ∈ obs, SameBh blake3 cc ob) →
      (runObserves blake3 cc obs).reporef = cc.reporef ∧
      (runObserves blake3 cc obs).file_cache_key = cc.file_cache_key ∧
      (runObserves blake3 cc obs).update = cc.update ∧
      (runObserves blake3 cc obs).new = cc.new ∧
      (runObserves blake3 cc obs).new_sql = cc.new_sql ∧
      ((keysOf cc.cache).Nodup → (keysOf (runObserves blake3 cc obs).cache).Nodup) ∧
      (∀ k cell, getKey cc.cache k = some cell → cell.fresh = true →
        getKey (runObserves blake3 cc obs).cache k = some cell) ∧
      (∀ ob ∈ obs, getKey (runObserves blake3 cc obs).cache
          (cache_key blake3 cc.file_cache_key ob.data) =
        some (FreshValue.ofValue (branchesHashStr blake3 ob.payload.branches))) := by
  induction obs with
  | nil =>
    intro cc _
    refine ⟨rfl, rfl, rfl, rfl, rfl, fun h => h, fun k cell hg _ => hg, ?_⟩
    intro ob hob
    exact absurd hob (List.not_mem_nil ob)
  | cons ob0 rest ih =>
    intro cc hall
    have h0 : SameBh blake3 cc ob0 := hall ob0 (List.mem_cons_self ob0 rest)
    have hallr : ∀ ob ∈ rest, SameBh blake3 (stepObs blake3 cc ob0) ob := fun ob hob =>
      stepObs_same_bh_preserves blake3 cc ob0 h0 ob (hall ob (List.mem_cons_of_mem _ hob))
    obtain ⟨hrep, hfck, hupd, hnew, hnsql, hnd, hfresh, hobs⟩ := ih (stepObs blake3 cc ob0) hallr
    obtain ⟨hbu, hbn, hbs⟩ := stepObs_same_bh_buffers blake3 cc ob0 h0
    rw [runObserves_cons]
    refine ⟨hrep.trans (stepObs_same_bh_reporef blake3 cc ob0 h0),
      hfck.trans (stepObs_same_bh_fck blake3 cc ob0 h0),
      hupd.trans hbu, hnew.trans hbn, hnsql.trans hbs, ?_, ?_, ?_⟩
    · intro hcc
      refine hnd ?_
      rw [stepObs_same_bh_cache blake3 cc ob0 h0]
      exact nodup_keys_setKey _ _ _ hcc
    · intro k cell hg hf
      exact hfresh k cell (stepObs_same_bh_keeps_fresh blake3 cc ob0 h0 k cell hg hf) hf
    · intro ob hob
      rcases List.mem_cons.mp hob with hh | hh
      · rw [hh]
        have hg1 : getKey (stepObs blake3 cc ob0).cache
            (cache_key blake3 cc.file_cache_key ob0.data) =
            some (FreshValue.ofValue (branchesHashStr blake3 ob0.payload.branches)) := by
          rw [stepObs_same_bh_cache blake3 cc ob0 h0]
          exact getKey_setKey_self _ _ _
        exact hfresh _ _ hg1 rfl
      · have := hobs ob hh
        rw [stepObs_same_bh_fck blake3 cc ob0 h0] at this
        exact this

theorem mem_staleIds_mem_keys (m : List (String × FreshValue String)) (k : String)
    (h : k ∈ staleIds m) : k ∈ keysOf m := by
  unfold staleIds at h
  obtain ⟨kv, hkv, hk⟩ := List.mem_map.mp h
  rw [← hk]
  exact List.mem_map_of_mem _ (List.mem_of_mem_filter hkv)

theorem fresh_not_in_staleIds (m : List (String × FreshValue String)) (k : String)
    (cell : FreshValue String) (hnd : (keysOf m).Nodup)
    (hget : getKey m k = some cell) (hf : cell.fresh = true) : k ∉ staleIds m := by
  induction m with
  | nil => simp [staleIds]
  | cons kv rest ih =>
    intro hmem
    have hkeys : keysOf (kv :: rest) = kv.1 :: keysOf rest := rfl
    rw [hkeys] at hnd
    have hnotmem : kv.1 ∉ keysOf rest := (List.nodup_cons.mp hnd).1
    have hnd2 : (keysOf rest).Nodup := (List.nodup_cons.mp hnd).2
    by_cases hk : kv.1 = k
    · have hcell : kv.2 = cell := by
        simpa [getKey, hk] using hget
      have hfr : kv.2.fresh = true := by
        rw [hcell]
        exact hf
      have hmem2 : k ∈ staleIds rest := by
        simpa [staleIds, List.filter, hfr] using hmem
      have hk2 : k ∈ keysOf rest := mem_staleIds_mem_keys rest k hmem2
      rw [hk] at hnotmem
      exact hnotmem hk2
    · have hget2 : getKey rest k = some cell := by
        simpa [getKey, hk] using hget
      cases hfr : kv.2.fresh with
      | true =>
        have hmem2 : k ∈ staleIds rest := by
          simpa [staleIds, List.filter, hfr] using hmem
        exact ih hnd2 hget2 hmem2
      | false =>
        have hmem2 : k = kv.1 ∨ k ∈ staleIds rest := by
          simpa [staleIds, List.filter, hfr] using hmem
        rcases hmem2 with hh | hh
        · exact hk hh.symm
        · exact ih hnd2 hget2 hh

theorem for_file_cache_nodup (E : Type) (reporef fk : String)
    (rows : List (String × String)) : (keysOf (for_file E reporef fk rows).cache).Nodup := by
  have h : ∀ m : List (String × FreshValue String), (keysOf m).Nodup →
      (keysOf (rows.foldl (fun m r => insertIfAbsent m r.1 (FreshValue.stale r.2)) m)).Nodup := by
    induction rows with
    | nil =>
      intro m hm
      exact hm
    | cons r rest ih =>
      intro m hm
      exact ih _ (nodup_keys_insertIfAbsent _ _ _ hm)
  exact h [] (by simp [keysOf])

theorem commit_branch_updates_nil {E : Type} (o : Oracle E) :
    commit_branch_updates o [] = (Except.ok 0, [], []) := rfl

theorem commit_inserts_nil {E : Type} (o : Oracle E) (fk repo : String) :
    commit_inserts o fk repo [] [] = (Except.ok 0, [], []) := rfl

theorem commit_counts_zero {E : Type} (o : Oracle E) (cc : ChunkCache E) (db : ChunkDB)
    (hupd : cc.update = []) (hnew : cc.new = []) (hnsql : cc.new_sql = []) :
    ∀ n u d, (commit o cc db).1 = Except.ok (n, u, d) → n = 0 ∧ u = 0 := by
  intro n u d h
  simp only [commit, hupd, hnew, hnsql, commit_branch_updates_nil, commit_inserts_nil] at h
  cases hb : (commit_deletes o cc.file_cache_key cc.cache).1 with
  | error eb =>
    rw [hb] at h
    simp at h
  | ok d0 =>
    rw [hb] at h
    simp at h
    exact ⟨h.1.symm, h.2.1.symm⟩

theorem commit_deletes_sql_mem {E : Type} (o : Oracle E) (fk : String)
    (cache : List (String × FreshValue String)) (op : SqlOp)
    (h : Ev.sql (E := E) op ∈ (commit_deletes o fk cache).2.2) :
    op ∈ (staleIds cache).map (fun p => SqlOp.deleteChunk p fk) := by
  simp only [commit_deletes] at h
  by_cases h1 : (runSqlOps o ((staleIds cache).map (fun p => SqlOp.deleteChunk p fk))).1
  · rw [if_pos h1] at h
    by_cases h2 : (staleIds cache).isEmpty
    · rw [if_pos h2] at h
      obtain ⟨op2, hop2, heq⟩ := List.mem_map.mp h
      rw [← Ev.sql.inj heq]
      exact runSqlOps_mem o _ op2 hop2
    · rw [if_neg h2] at h
      by_cases h3 : o.deletePointsOk (staleIds cache)
      all_goals {
        first | rw [if_pos h3] at h | rw [if_neg h3] at h
        simp only [List.mem_append, List.mem_singleton] at h
        rcases h with h | h
        · obtain ⟨op2, hop2, heq⟩ := List.mem_map.mp h
          rw [← Ev.sql.inj heq]
          exact runSqlOps_mem o _ op2 hop2
        · exact absurd h (by simp)
      }
  · rw [if_neg h1] at h
    obtain ⟨op2, hop2, heq⟩ := List.mem_map.mp h
    rw [← Ev.sql.inj heq]
    exact runSqlOps_mem o _ op2 hop2

theorem commit_deletes_not_involving {E : Type} (o : Oracle E) (fk : String)
    (cache : List (String × FreshValue String)) (id : String)
    (hid : id ∉ staleIds cache) :
    ∀ ev ∈ (commit_deletes o fk cache).2.2,
      (∀ fh, ev ≠ Ev.sql (SqlOp.deleteChunk id fh)) ∧
      (∀ ids, ev = Ev.deletePoints ids → id ∉ ids) := by
  intro ev hev
  constructor
  · intro fh heq
    rw [heq] at hev
    have hmem := commit_deletes_sql_mem o fk cache (SqlOp.deleteChunk id fh) hev
    obtain ⟨p, hp, hpe⟩ := List.mem_map.mp hmem
    have : p = id := (SqlOp.deleteChunk.inj hpe).1
    rw [this] at hp
    exact hid hp
  · intro ids heq
    rw [heq] at hev
    obtain ⟨h1, _⟩ := commit_deletes_deletePoints_mem o fk cache ids hev
    rw [h1]
    exact hid

/-- C5: starting from a freshly loaded chunk cache, any sequence of
observations that all hit the map with an unchanged branches hash only
marks cells fresh: every pending buffer stays empty, a successful commit
reports zero inserts and zero branch updates, and no delete — relational
or vector — in the commit trace involves an observed chunk's id. -/
theorem observe_same_branches_no_work {E : Type} (blake3 : String → List Nat)
    (reporef fk : String) (rows : List (String × String)) (obs : List (Obs E))
    (o : Oracle E) (db : ChunkDB)
    (hall : ∀ ob ∈ obs, SameBh blake3 (for_file E reporef fk rows) ob) :
    (runObserves blake3 (for_file E reporef fk rows) obs).update = [] ∧
    (runObserves blake3 (for_file E reporef fk rows) obs).new = [] ∧
    (runObserves blake3 (for_file E reporef fk rows) obs).new_sql = [] ∧
    (∀ n u d, (commit o (runObserves blake3 (for_file E reporef fk rows) obs) db).1 =
        Except.ok (n, u, d) → n = 0 ∧ u = 0) ∧
    (∀ ob ∈ obs,
      ∀ ev ∈ (commit o (runObserves blake3 (for_file E reporef fk rows) obs) db).2.2,
        (∀ fh, ev ≠ Ev.sql (SqlOp.deleteChunk (cache_key blake3 fk ob.data) fh)) ∧
        (∀ ids, ev = Ev.deletePoints ids → cache_key blake3 fk ob.data ∉ ids)) := by
  obtain ⟨hrep, hfck, hupd, hnew, hnsql, hnd, hfresh, hobs⟩ :=
    runObserves_same_bh_facts blake3 obs (for_file E reporef fk rows) hall
  have hupd2 : (runObserves blake3 (for_file E reporef fk rows) obs).update = [] := hupd
  have hnew2 : (runObserves blake3 (for_file E reporef fk rows) obs).new = [] := hnew
  have hnsql2 : (runObserves blake3 (for_file E reporef fk rows) obs).new_sql = [] := hnsql
  refine ⟨hupd2, hnew2, hnsql2,
    commit_counts_zero o _ db hupd2 hnew2 hnsql2, ?_⟩
  intro ob hob ev hev
  have hkey : getKey (runObserves blake3 (for_file E reporef fk rows) obs).cache
      (cache_key blake3 fk ob.data) =
      some (FreshValue.ofValue (branchesHashStr blake3 ob.payload.branches)) := hobs ob hob
  have hndf : (keysOf (runObserves blake3 (for_file E reporef fk rows) obs).cache).Nodup :=
    hnd (for_file_cache_nodup E reporef fk rows)
  have hstale : cache_key blake3 fk ob.data ∉
      staleIds (runObserves blake3 (for_file E reporef fk rows) obs).cache :=
    fresh_not_in_staleIds _ _ _ hndf hkey rfl
  obtain ⟨ta, tb, tc, htr, hta, htb, htc⟩ :=
    commit_trace_decomp o (runObserves blake3 (for_file E reporef fk rows) obs) db
  rw [htr] at hev
  simp only [List.mem_append] at hev
  rcases hev with (hev | hev) | hev
  · have hkind := commit_branch_updates_trace_kinds o
      (runObserves blake3 (for_file E reporef fk rows) obs).update ev (hta ev hev)
    constructor
    · intro fh heq
      rw [heq] at hkind
      simp [Ev.isUpdateKind] at hkind
    · intro ids heq
      rw [heq] at hkind
      simp [Ev.isUpdateKind] at hkind
  · exact commit_deletes_not_involving o
      (runObserves blake3 (for_file E reporef fk rows) obs).file_cache_key
      (runObserves blake3 (for_file E reporef fk rows) obs).cache
      (cache_key blake3 fk ob.data) hstale ev (htb ev hev)
  · have hkind := commit_inserts_trace_kinds o
      (runObserves blake3 (for_file E reporef fk rows) obs).file_cache_key
      (runObserves blake3 (for_file E reporef fk rows) obs).reporef
      (runObserves blake3 (for_file E reporef fk rows) obs).new
      (runObserves blake3 (for_file E reporef fk rows) obs).new_sql ev (htc ev hev)
    constructor
    · intro fh heq
      rw [heq] at hkind
      simp [Ev.isInsertKind] at hkind
    · intro ids heq
      rw [heq] at hkind
      simp [Ev.isInsertKind] at hkind

/-- Rows loaded for the C5 witness: the observed chunk's id with its
branches hash already stored. -/
def rowsW5 : List (String × String) :=
  [(cache_key blakeNil "fh" "chunk", branchesHashStr blakeNil ["main"])]

/-- Observation list for the C5 witness: one hit-same-branches observe. -/
def obsW5 : List (Obs Unit) :=
  [{ data := "chunk", embedder := fun _ => Except.ok (), payload := { branches := ["main"] } }]

/-- Witness for C5 at a concrete cache, observation and oracle. -/
theorem observe_same_branches_no_work_witness :
    (∀ ob ∈ obsW5, SameBh blakeNil (for_file Unit "r" "fh" rowsW5) ob) ∧
    (runObserves blakeNil (for_file Unit "r" "fh" rowsW5) obsW5).update = [] ∧
    (runObserves blakeNil (for_file Unit "r" "fh" rowsW5) obsW5).new = [] ∧
    (runObserves blakeNil (for_file Unit "r" "fh" rowsW5) obsW5).new_sql = [] ∧
    (commit oracleOk (runObserves blakeNil (for_file Unit "r" "fh" rowsW5) obsW5) []).1 =
      Except.ok (0, 0, 0) ∧
    ((0 : Nat) = 0 ∧ (0 : Nat) = 0) := by
  have hall : ∀ ob ∈ obsW5, SameBh blakeNil (for_file Unit "r" "fh" rowsW5) ob := by
    intro ob hob
    simp only [obsW5, List.mem_singleton] at hob
    rw [hob]
    exact ⟨FreshValue.stale (branchesHashStr blakeNil ["main"]), by decide, rfl⟩
  have h := observe_same_branches_no_work blakeNil "r" "fh" rowsW5 obsW5 oracleOk [] hall
  exact ⟨hall, h.1, h.2.1, h.2.2.1, rfl, h.2.2.2.1 0 0 0 rfl⟩

end Bloop
